import Mathlib

/-!
Verification development for the bounded-depth single-domain crawler
(`crawl.py`).  The Python source is shallowly embedded below:

* the URL parsing helpers (`urllib.parse.urlparse` / `urlunparse`, as used
  by the code, specialised to the ASCII inputs the claims are about) become
  pure Lean functions returning `Except Unit _` — `.error` models a raised
  `ValueError`;
* `pathlib.Path(...).resolve()` is modelled by its purely textual behaviour
  on a filesystem with no matching entries (no symlinks); the fact that the
  real call consults the filesystem is part of what the claims discuss;
* the worker loop `parse_url` becomes a step relation `CStep` over an
  explicit `CrawlState`, with the fetch of a URL given by a pure oracle
  `fetch : String → FetchResult`; several workers interleave, each worker's
  iteration being split into the pop/guard phase and the processing phase
  (the same split the shared `visited_urls` list makes observable);
* `output_dupimgs` becomes a pure function from the image-record list to
  the list of CSV rows.

Ghost fields (`everQueued`, `fetchedLog`, and the depth component stored
with invalid records) record history only; they never influence behaviour.
-/

/-! ## Character-list helpers -/

/-- Split a list at the first occurrence of `c`; `none` when `c` is absent.
Models Python `str.find(c)` / `str.split(c, 1)`. -/
def splitAtFirst (c : Char) : List Char → List Char × Option (List Char)
  | [] => ([], none)
  | x :: xs =>
    if x = c then ([], some xs)
    else
      let r := splitAtFirst c xs
      (x :: r.1, r.2)

/-- Characters allowed in a URL scheme (`urllib.parse.scheme_chars`). -/
def schemeChars : List Char :=
  "abcdefghijklmnopqrstuvwxyzABCDEFGHIJKLMNOPQRSTUVWXYZ0123456789+-.".toList

/-- `".." in path` — Python substring containment of two dots. -/
def hasDotDot : List Char → Bool
  | '.' :: '.' :: _ => true
  | _ :: rest => hasDotDot rest
  | [] => false

/-- Python `str.split(c)` (always at least one piece). -/
def splitOnChar (c : Char) : List Char → List (List Char)
  | [] => [[]]
  | x :: xs =>
    match splitOnChar c xs with
    | [] => [[]]
    | h :: t => if x = c then [] :: h :: t else (x :: h) :: t

/-- First-occurrence deduplication with an explicit `seen` accumulator;
`dedupFirst` models both Python's `set(...)` (order normalised to first
occurrence) and insertion-ordered `dict` keys. -/
def dedupFirstAux : List String → List String → List String
  | [], _ => []
  | x :: t, seen =>
    if seen.contains x then dedupFirstAux t seen
    else x :: dedupFirstAux t (x :: seen)

/-- First-occurrence deduplication of a list of strings. -/
def dedupFirst (l : List String) : List String :=
  dedupFirstAux l []

/-! ## `urllib.parse` model -/

/-- Result of `urlsplit`: scheme, netloc, path, query, fragment. -/
structure SplitParts where
  scheme : String
  netloc : String
  path : String
  query : String
  fragment : String
deriving DecidableEq

/-- Result of `urlparse`: the 6-tuple the code indexes as `p[:]`. -/
structure UrlParts where
  scheme : String
  netloc : String
  path : String
  params : String
  query : String
  fragment : String
deriving DecidableEq

deriving instance DecidableEq for Except

/-- `urllib.parse.urlsplit` (CPython 3.7, `allow_fragments=True`), for the
ASCII inputs of the claims.  `.error ()` models the `ValueError` raised for
an unbalanced-bracket netloc ("Invalid IPv6 URL"). -/
def pyUrlsplitE (url : String) : Except Unit SplitParts :=
  let l0 := url.toList
  -- scheme split: i = url.find(':'); needs i > 0 and url[:i] ⊆ scheme_chars
  let sp :=
    match splitAtFirst ':' l0 with
    | (pre, some after) =>
      if pre ≠ [] ∧ pre.all (fun c => schemeChars.contains c) then
        (pre.map Char.toLower, after)
      else (([] : List Char), l0)
    | (_, none) => ([], l0)
  -- netloc split: only when the rest starts with exactly "//"
  let np :=
    match sp.2 with
    | '/' :: '/' :: r =>
      (r.takeWhile (fun c => !(c == '/' || c == '?' || c == '#')),
       r.dropWhile (fun c => !(c == '/' || c == '?' || c == '#')))
    | rest => ([], rest)
  if (np.1.contains '[' && !(np.1.contains ']')) ||
     (np.1.contains ']' && !(np.1.contains '[')) then
    .error ()
  else
    let fp :=
      match splitAtFirst '#' np.2 with
      | (a, some b) => (a, b)
      | (a, none) => (a, ([] : List Char))
    let qp :=
      match splitAtFirst '?' fp.1 with
      | (a, some b) => (a, b)
      | (a, none) => (a, ([] : List Char))
    .ok ⟨String.mk sp.1, String.mk np.1, String.mk qp.1,
         String.mk qp.2, String.mk fp.2⟩

/-- Schemes for which `urlparse` splits path parameters
(`urllib.parse.uses_params`). -/
def usesParams : List String :=
  ["", "ftp", "hdl", "prospero", "http", "imap", "https", "shttp", "rtsp",
   "rtspu", "sip", "sips", "mms", "sftp", "tel"]

/-- `urllib.parse._splitparams`, called only when `';'` occurs in the path:
when the path contains `'/'`, look for `';'` from the last `'/'` on,
otherwise from the start. -/
def pySplitParams (path : List Char) : List Char × List Char :=
  if path.contains '/' then
    let rev := path.reverse
    let lastSegRev := rev.takeWhile (fun c => c ≠ '/')
    let beforeRev := rev.dropWhile (fun c => c ≠ '/')
    let lastSeg := lastSegRev.reverse
    match splitAtFirst ';' lastSeg with
    | (_, none) => (path, [])
    | (a, some b) => (beforeRev.reverse ++ a, b)
  else
    match splitAtFirst ';' path with
    | (_, none) => (path, [])
    | (a, some b) => (a, b)

/-- `urllib.parse.urlparse` (CPython 3.7): `urlsplit` plus the params
split. -/
def pyUrlparseE (url : String) : Except Unit UrlParts :=
  match pyUrlsplitE url with
  | .error e => .error e
  | .ok s =>
    let pl := s.path.toList
    let pp :=
      if usesParams.contains s.scheme && pl.contains ';' then
        pySplitParams pl
      else (pl, ([] : List Char))
    .ok ⟨s.scheme, s.netloc, String.mk pp.1, String.mk pp.2,
         s.query, s.fragment⟩

/-- `validate_url` from `crawl.py`: it wraps `urlparse` catching only
`KeyboardInterrupt`, so a `ValueError` from `urlparse` propagates to the
caller and the function never returns `None` in this model. -/
def validate_url (url : String) : Except Unit UrlParts :=
  pyUrlparseE url

/-- `urllib.parse.urlunsplit`. -/
def pyUrlunsplit (scheme netloc path query fragment : String) : String :=
  let url :=
    if netloc ≠ "" ∨ (path ≠ "" ∧ path.toList.take 2 = ['/', '/']) then
      let p :=
        if path ≠ "" ∧ path.toList.head? ≠ some '/' then "/" ++ path else path
      "//" ++ netloc ++ p
    else path
  let url := if scheme ≠ "" then scheme ++ ":" ++ url else url
  let url := if query ≠ "" then url ++ "?" ++ query else url
  if fragment ≠ "" then url ++ "#" ++ fragment else url

/-- `urllib.parse.urlunparse`. -/
def pyUrlunparse (t : UrlParts) : String :=
  let p := if t.params ≠ "" then t.path ++ ";" ++ t.params else t.path
  pyUrlunsplit t.scheme t.netloc p t.query t.fragment

/-! ## `pathlib.Path(...).resolve()` model -/

/-- The segment walk of `_PosixFlavour.resolve` (CPython 3.7): empty and
`"."` segments are skipped, `".."` removes the last accumulated segment
(never below the root), other segments accumulate.  This is the purely
textual behaviour obtained when no filesystem entry matches a prefix of
the path (a symlink on a prefix would change the result — the real call
reads the filesystem). -/
def resolveSegs : List (List Char) → List (List Char) → List (List Char)
  | [], acc => acc.reverse
  | s :: rest, acc =>
    if s = [] ∨ s = ['.'] then resolveSegs rest acc
    else if s = ['.', '.'] then resolveSegs rest acc.tail
    else resolveSegs rest (s :: acc)

/-- `str(Path(s).resolve())` for an absolute POSIX path `s`, on a
filesystem with no matching entries. -/
def pyPathResolve (s : String) : String :=
  let segs := resolveSegs (splitOnChar '/' s.toList) []
  if segs = [] then "/" else String.mk ('/' :: List.intercalate ['/'] segs)

/-! ## RFC 3986 reference resolution (spec model)

Modelled from the spec: the spec requires the Normalizer to follow
"standard URL-resolution semantics" for relative paths ("resolve it
against the parent page's path ... textual resolution, not filesystem
access").  The following two functions are RFC 3986 §5.3 (path merge)
and §5.2.4 (`remove_dot_segments`); they exist only to be compared with
the code's `pyPathResolve`-based computation. -/

/-- RFC 3986 §5.3 merge for a base URI with authority: the reference path
is appended to the base path up to (and including) its last `/`. -/
def rfcMergePaths (basePath refPath : String) : String :=
  let rev := basePath.toList.reverse
  let keptRev := rev.dropWhile (fun c => c ≠ '/')
  String.mk keptRev.reverse ++ refPath

/-- One unit of work for `remove_dot_segments`, RFC 3986 §5.2.4, with a
fuel counter (the input shrinks at every step). -/
def rfcRdsAux : Nat → List Char → List Char → List Char
  | 0, out, inp => out ++ inp
  | _ + 1, out, [] => out
  | fuel + 1, out, inp =>
    match inp with
    | [] => out
    | '.' :: '.' :: '/' :: rest => rfcRdsAux fuel out rest
    | '.' :: '/' :: rest => rfcRdsAux fuel out rest
    | '/' :: '.' :: '/' :: rest => rfcRdsAux fuel out ('/' :: rest)
    | ['/', '.'] => rfcRdsAux fuel out ['/']
    | '/' :: '.' :: '.' :: '/' :: rest =>
      rfcRdsAux fuel ((out.reverse.dropWhile (fun c => c ≠ '/')).tail.reverse)
        ('/' :: rest)
    | ['/', '.', '.'] =>
      rfcRdsAux fuel ((out.reverse.dropWhile (fun c => c ≠ '/')).tail.reverse)
        ['/']
    | ['.'] => rfcRdsAux fuel out []
    | ['.', '.'] => rfcRdsAux fuel out []
    | c :: rest =>
      let seg := rest.takeWhile (fun x => x ≠ '/')
      let rem := rest.dropWhile (fun x => x ≠ '/')
      rfcRdsAux fuel (out ++ c :: seg) rem

/-- RFC 3986 §5.2.4 `remove_dot_segments`. -/
def rfcRemoveDotSegments (p : String) : String :=
  String.mk (rfcRdsAux (p.toList.length + 1) [] p.toList)

/-- Standard resolution of a reference path against a base path (base URI
with authority): RFC 3986 §5.2.2 path cases. -/
def rfcResolvePath (basePath refPath : String) : String :=
  if refPath.toList.head? = some '/' then rfcRemoveDotSegments refPath
  else rfcRemoveDotSegments (rfcMergePaths basePath refPath)

/-! ## The URL Normalizer (crawl.py lines 100–121) -/

/-- The error kinds of `crawl.py` (`URLError`). -/
inductive URLError
  | EXTERNAL_DOMAIN
  | DOWNLOAD_ERROR
  | PARSE_ERROR
deriving DecidableEq

/-- Outcome of classifying one raw link: `err` models a `ValueError`
propagating out of `validate_url` (aborting the link loop), otherwise the
resolved URL is classified external or valid. -/
inductive LinkResult
  | err
  | external (u : String)
  | valid (u : String)
deriving DecidableEq

/-- Lines 100–121 of `crawl.py` for one raw link `link` found on a page
whose parsed URL is `parent` (`url_parsed` in the code): parse the link,
inherit missing scheme/netloc from the parent, collapse the path through
`Path("/{parent.path}/{link.path}").resolve()` whenever the link's path
contains `".."` as a substring, drop the fragment, re-serialise, re-parse,
and compare netlocs.  (The `p is None` branches of the code are
unreachable because `validate_url` only returns `None` on
`KeyboardInterrupt`.) -/
def classifyLink (parent : UrlParts) (link : String) : LinkResult :=
  match pyUrlparseE link with
  | .error _ => .err
  | .ok p =>
    let t0 := if p.scheme = "" then parent.scheme else p.scheme
    let t1 := if p.netloc = "" then parent.netloc else p.netloc
    let t2 :=
      if hasDotDot p.path.toList then
        pyPathResolve ("/" ++ parent.path ++ "/" ++ p.path)
      else p.path
    let newLink := pyUrlunparse ⟨t0, t1, t2, p.params, p.query, ""⟩
    match pyUrlparseE newLink with
    | .error _ => .err
    | .ok p2 =>
      if p2.netloc ≠ parent.netloc then .external newLink
      else .valid newLink

/-- The link loop of lines 100–121: returns the collected invalid-record
list, the collected valid-link list, and whether the loop was aborted by a
propagating exception (in which case the remaining links are dropped but
records collected so far are kept, as in the code). -/
def processLinks (parent : UrlParts) : List String →
    List (String × URLError) × List String × Bool
  | [] => ([], [], false)
  | link :: rest =>
    match classifyLink parent link with
    | .err => ([], [], true)
    | .external u =>
      let r := processLinks parent rest
      ((u, .EXTERNAL_DOMAIN) :: r.1, r.2.1, r.2.2)
    | .valid u =>
      let r := processLinks parent rest
      (r.1, u :: r.2.1, r.2.2)

/-! ## The worker loop and the crawl engine (crawl.py lines 42–147, 169–217) -/

/-- What the external fetcher (`requests.get` + content-type dispatch +
BeautifulSoup extraction) yields for a URL.  `downloadError` is a
`requests.exceptions.RequestException`; `fetchCrash` is any other
exception raised by the fetch; `extractCrash` is an exception raised
while extracting links from an HTML body. -/
inductive FetchResult
  | html (links : List String)
  | extractCrash
  | image (hash : String)
  | other
  | downloadError
  | fetchCrash
deriving DecidableEq

/-- Everything one full execution of the worker body (lines 69–147, after
the two skip guards) appends to the shared state.  `invalids` carries, as
a ghost third component, the depth of the frontier item being processed
when the record was written (the CSV row itself is only `(url, error)`).
`fetched` is a ghost log of the `requests.get` calls. -/
structure ProcOut where
  valids : List (String × Nat)
  invalids : List (String × URLError × Nat)
  images : List (String × String)
  pushes : List (String × Nat)
  errLog : List String
  fetched : List (String × Nat)
deriving DecidableEq

/-- The empty `ProcOut`. -/
def emptyOut : ProcOut := ⟨[], [], [], [], [], []⟩

/-- Lines 69–147 of `crawl.py` for a frontier item `(u, ℓ)` that passed
both skip guards, against the snapshot `visited` of the shared visited
list.  Every branch mirrors the code: a `ValueError` from parsing `u`
or a non-`RequestException` fetch failure is caught by the outer
`except Exception` (diagnostic log, no records, no pushes); a
`RequestException` yields one `DownloadError` record; a successful fetch
writes the Valid record first, then processes the body; an exception in
the link loop keeps the records collected so far but skips the pushes. -/
def processItem (fetch : String → FetchResult) (visited : List String)
    (u : String) (ℓ : Nat) : ProcOut :=
  match pyUrlparseE u with
  | .error _ => { emptyOut with errLog := [u] }
  | .ok up =>
    match fetch u with
    | .downloadError =>
      { emptyOut with invalids := [(u, .DOWNLOAD_ERROR, ℓ)], fetched := [(u, ℓ)] }
    | .fetchCrash =>
      { emptyOut with errLog := [u], fetched := [(u, ℓ)] }
    | .other =>
      { emptyOut with valids := [(u, ℓ)], fetched := [(u, ℓ)] }
    | .image h =>
      { emptyOut with valids := [(u, ℓ)], images := [(h, u)], fetched := [(u, ℓ)] }
    | .extractCrash =>
      { emptyOut with valids := [(u, ℓ)], errLog := [u], fetched := [(u, ℓ)] }
    | .html links =>
      let r := processLinks up links
      let pushes :=
        if r.2.2 then []
        else
          ((dedupFirst r.2.1).filter (fun v => !(visited.contains v))).map
            (fun v => (v, ℓ + 1))
      { valids := [(u, ℓ)],
        invalids := r.1.map (fun x => (x.1, x.2, ℓ)),
        images := [],
        pushes := pushes,
        errLog := if r.2.2 then [u] else [],
        fetched := [(u, ℓ)] }

/-- The shared state of a run: the joinable queue (FIFO), the fixed pool
of workers (`none` = between iterations, `some (u, ℓ)` = past the guards
and processing `(u, ℓ)`), the `visited_urls` list, the three sinks, the
stderr diagnostic log, and two ghost history fields (`everQueued`: every
item ever put on the queue, seed included; `fetchedLog`: every
`requests.get` call). -/
structure CrawlState where
  queue : List (String × Nat)
  workers : List (Option (String × Nat))
  visited : List String
  validRecs : List (String × Nat)
  invalidRecs : List (String × URLError × Nat)
  images : List (String × String)
  errLog : List String
  everQueued : List (String × Nat)
  fetchedLog : List (String × Nat)
deriving DecidableEq

/-- Effect on the shared state of worker `i` finishing the body for its
held item `(u, ℓ)`: records and images appended, new links pushed (the
push-time `u not in visited_urls` check in `processItem` already used the
same snapshot), `u` appended to the visited list (line 146, after the
pushes), worker back to idle. -/
def runStep (fetch : String → FetchResult) (s : CrawlState) (i : Nat)
    (u : String) (ℓ : Nat) : CrawlState :=
  let po := processItem fetch s.visited u ℓ
  { queue := s.queue ++ po.pushes
    workers := s.workers.set i none
    visited := s.visited ++ [u]
    validRecs := s.validRecs ++ po.valids
    invalidRecs := s.invalidRecs ++ po.invalids
    images := s.images ++ po.images
    errLog := s.errLog ++ po.errLog
    everQueued := s.everQueued ++ po.pushes
    fetchedLog := s.fetchedLog ++ po.fetched }

/-- Interleaving semantics of the worker pool, with the configured max
depth `d` (`MAX_DEPTH_LEVEL`).  A worker iteration is split at the only
point where the shared state makes the split observable: the pop/guard
phase (lines 57–67) and the processing phase (lines 69–147).  `skipDeep`
and `skipVisited` are the two `continue` guards; `take` is a worker
passing both guards and starting to process; `run` is the rest of the
body executed against the then-current visited list. -/
inductive CStep (fetch : String → FetchResult) (d : Nat) :
    CrawlState → CrawlState → Prop
  | skipDeep (s : CrawlState) (i : Nat) (u : String) (ℓ : Nat)
      (rest : List (String × Nat)) :
      s.workers.get? i = some none → s.queue = (u, ℓ) :: rest → d < ℓ →
      CStep fetch d s { s with queue := rest }
  | skipVisited (s : CrawlState) (i : Nat) (u : String) (ℓ : Nat)
      (rest : List (String × Nat)) :
      s.workers.get? i = some none → s.queue = (u, ℓ) :: rest → ℓ ≤ d →
      u ∈ s.visited →
      CStep fetch d s { s with queue := rest }
  | take (s : CrawlState) (i : Nat) (u : String) (ℓ : Nat)
      (rest : List (String × Nat)) :
      s.workers.get? i = some none → s.queue = (u, ℓ) :: rest → ℓ ≤ d →
      u ∉ s.visited →
      CStep fetch d s
        { s with queue := rest, workers := s.workers.set i (some (u, ℓ)) }
  | run (s : CrawlState) (i : Nat) (u : String) (ℓ : Nat) :
      s.workers.get? i = some (some (u, ℓ)) →
      CStep fetch d s (runStep fetch s i u ℓ)

/-- The state the `Crawler` constructor sets up before `queue.join()`:
the seed at depth 0 on the queue, `W` idle workers, everything else
empty. -/
def initState (seed : String) (W : Nat) : CrawlState :=
  { queue := [(seed, 0)]
    workers := List.replicate W none
    visited := []
    validRecs := []
    invalidRecs := []
    images := []
    errLog := []
    everQueued := [(seed, 0)]
    fetchedLog := [] }

/-- Reachability of a state in a run with fetch oracle `fetch`, max depth
`d`, `W` workers and the given seed. -/
def CReachable (fetch : String → FetchResult) (d W : Nat) (seed : String)
    (s : CrawlState) : Prop :=
  Relation.ReflTransGen (CStep fetch d) (initState seed W) s

/-! ### Executable schedules (used to exhibit concrete runs) -/

/-- One scheduling decision: which worker moves, and which phase. -/
inductive WAct
  | skipDeep (i : Nat)
  | skipVisited (i : Nat)
  | take (i : Nat)
  | run (i : Nat)

/-- Execute one scheduling decision if its guards hold, producing exactly
the state the corresponding `CStep` constructor produces. -/
def applyAct (fetch : String → FetchResult) (d : Nat) (s : CrawlState) :
    WAct → Option CrawlState
  | .skipDeep i =>
    match s.workers.get? i, s.queue with
    | some none, (_, ℓ) :: rest =>
      if d < ℓ then some { s with queue := rest } else none
    | _, _ => none
  | .skipVisited i =>
    match s.workers.get? i, s.queue with
    | some none, (u, ℓ) :: rest =>
      if ℓ ≤ d ∧ u ∈ s.visited then some { s with queue := rest } else none
    | _, _ => none
  | .take i =>
    match s.workers.get? i, s.queue with
    | some none, (u, ℓ) :: rest =>
      if ℓ ≤ d ∧ u ∉ s.visited then
        some { s with queue := rest, workers := s.workers.set i (some (u, ℓ)) }
      else none
    | _, _ => none
  | .run i =>
    match s.workers.get? i with
    | some (some (u, ℓ)) => some (runStep fetch s i u ℓ)
    | _ => none

/-- Execute a list of scheduling decisions. -/
def runActs (fetch : String → FetchResult) (d : Nat) :
    CrawlState → List WAct → Option CrawlState
  | s, [] => some s
  | s, a :: rest =>
    match applyAct fetch d s a with
    | some s' => runActs fetch d s' rest
    | none => none

/-! ## The duplicate-image report (crawl.py lines 150–166) -/

/-- The URLs recorded for content hash `h`, in record order
(`dp_imgs[h]`). -/
def hashGroup (records : List (String × String)) (h : String) : List String :=
  (records.filter (fun r => r.1 == h)).map (fun r => r.2)

/-- The data rows of `output_dupimgs`: hashes in first-appearance order
(insertion-ordered `dict`), a group emitted iff it has more than one
entry (`len(urls) > 1` — entry count, not distinct-URL count), one row
`[url, hash]` per entry. -/
def dupRows (records : List (String × String)) : List (List String) :=
  ((dedupFirst (records.map (fun r => r.1))).map (fun h =>
    let urls := hashGroup records h
    if 1 < urls.length then urls.map (fun u => [u, h]) else [])).flatten

/-- `output_dupimgs`: the header row followed by the data rows, as the
list of CSV rows written to the duplicate-image file. -/
def output_dupimgs (records : List (String × String)) : List (List String) :=
  ["URL", "md5"] :: dupRows records

/-! ## Concrete runs used as counterexamples and witnesses -/

/-- The seed URL used by the concrete runs. -/
def seedX : String := "http://x.test/"

/-- Fetch oracle: the seed page is HTML containing the malformed link of
spec §8 ("Malformed link"); everything else is a non-HTML resource. -/
def fetchC2 (u : String) : FetchResult :=
  if u = "http://x.test/" then .html ["::not a url::"] else .other

/-- Fetch oracle: a three-deep chain of single-link HTML pages. -/
def fetchC3 (u : String) : FetchResult :=
  if u = "http://x.test/" then .html ["/a"]
  else if u = "http://x.test/a" then .html ["/b"]
  else if u = "http://x.test/b" then .html ["/c"]
  else .other

/-- Fetch oracle: the seed page links to another domain. -/
def fetchC5 (u : String) : FetchResult :=
  if u = "http://x.test/" then .html ["http://other.test/b"] else .other

/-- Fetch oracle: two pages `/p` and `/q` both link `/dup`. -/
def fetchC6 (u : String) : FetchResult :=
  if u = "http://x.test/" then .html ["/p", "/q"]
  else if u = "http://x.test/p" then .html ["/dup"]
  else if u = "http://x.test/q" then .html ["/dup"]
  else .other

/-- Fetch oracle: like `fetchC6` but `/dup` fails to download. -/
def fetchC10 (u : String) : FetchResult :=
  if u = "http://x.test/" then .html ["/p", "/q"]
  else if u = "http://x.test/p" then .html ["/dup"]
  else if u = "http://x.test/q" then .html ["/dup"]
  else if u = "http://x.test/dup" then .downloadError
  else .other

/-- Fetch oracle: every fetch raises an unexpected (non-request)
exception. -/
def fetchCrashAll (_ : String) : FetchResult := .fetchCrash

/-- A single worker processing items one at a time. -/
def seqActs2 : List WAct := [.take 0, .run 0]

/-- A single worker processing three items in sequence. -/
def seqActs6 : List WAct :=
  [.take 0, .run 0, .take 0, .run 0, .take 0, .run 0]

/-- The racy schedule: one worker drains the seed, `/p` and `/q` (queueing
`/dup` twice), then both workers pass the visited guard for `/dup` before
either finishes processing it — the check-then-act race of spec §9. -/
def raceActs : List WAct :=
  [.take 0, .run 0, .take 0, .run 0, .take 0, .run 0,
   .take 0, .take 1, .run 0, .run 1]

/-- Final state of the `fetchC2` run (depth 2, one worker). -/
def c2final : CrawlState :=
  (runActs fetchC2 2 (initState seedX 1) seqActs2).getD (initState seedX 1)

/-- Final state of the `fetchC3` run (depth 2, one worker). -/
def c3final : CrawlState :=
  (runActs fetchC3 2 (initState seedX 1) seqActs6).getD (initState seedX 1)

/-- Final state of the `fetchC5` run (depth 2, one worker). -/
def c5final : CrawlState :=
  (runActs fetchC5 2 (initState seedX 1) seqActs2).getD (initState seedX 1)

/-- Final state of the racy `fetchC6` run (depth 2, two workers). -/
def c6final : CrawlState :=
  (runActs fetchC6 2 (initState seedX 2) raceActs).getD (initState seedX 2)

/-- Final state of the racy `fetchC10` run (depth 2, two workers). -/
def c10final : CrawlState :=
  (runActs fetchC10 2 (initState seedX 2) raceActs).getD (initState seedX 2)

/-- Number of Valid records written for URL `u`. -/
def countValid (u : String) (l : List (String × Nat)) : Nat :=
  (l.filter (fun p => p.1 == u)).length

/-- Number of `DownloadError` records written for URL `u`. -/
def countDL (u : String) (l : List (String × URLError × Nat)) : Nat :=
  (l.filter (fun p => p.1 == u && p.2.1 == URLError.DOWNLOAD_ERROR)).length

/-- A single worker draining the `fetchC6`/`fetchC10` site sequentially:
the second queued copy of `/dup` is skipped by the visited guard. -/
def seqActs9 : List WAct :=
  [.take 0, .run 0, .take 0, .run 0, .take 0, .run 0, .take 0, .run 0,
   .skipVisited 0]

/-- Final state of the sequential (one-worker) `fetchC6` run. -/
def c6seqfinal : CrawlState :=
  (runActs fetchC6 2 (initState seedX 1) seqActs9).getD (initState seedX 1)

/-- Final state of the sequential (one-worker) `fetchC10` run. -/
def c10seqfinal : CrawlState :=
  (runActs fetchC10 2 (initState seedX 1) seqActs9).getD (initState seedX 1)

/-- A state in which worker 0 holds the seed item. -/
def c7state : CrawlState :=
  { initState seedX 1 with queue := [], workers := [some (seedX, 0)] }

/-- An unexpected error occurs while processing URL `u` during steps 3–5
of the worker loop: parsing the URL raises, the fetch raises something
other than a `RequestException`, link extraction raises, or one of the
extracted links makes `urlparse` raise inside the link loop. -/
def UnexpectedErr (fetch : String → FetchResult) (u : String) : Prop :=
  pyUrlparseE u = .error () ∨ fetch u = .fetchCrash ∨ fetch u = .extractCrash ∨
  ∃ links, fetch u = .html links ∧ ∃ l ∈ links, pyUrlparseE l = .error ()

/-- Depth bookkeeping invariant: queued and remembered items stay within
`d + 1` (children of depth-`d` pages), while everything a worker holds,
fetches or records stays within `d`; and the queue, the holders and the
fetch log are all drawn from the queue history. -/
structure DepthInv (d : Nat) (s : CrawlState) : Prop where
  queue_le : ∀ p ∈ s.queue, p.2 ≤ d + 1
  workers_le : ∀ i u ℓ, s.workers.get? i = some (some (u, ℓ)) → ℓ ≤ d
  ever_le : ∀ p ∈ s.everQueued, p.2 ≤ d + 1
  fetched_le : ∀ p ∈ s.fetchedLog, p.2 ≤ d
  valid_le : ∀ p ∈ s.validRecs, p.2 ≤ d
  invalid_le : ∀ p ∈ s.invalidRecs, p.2.2 ≤ d
  queue_sub : ∀ p ∈ s.queue, p ∈ s.everQueued
  workers_sub : ∀ i u ℓ, s.workers.get? i = some (some (u, ℓ)) → (u, ℓ) ∈ s.everQueued
  fetched_sub : ∀ p ∈ s.fetchedLog, p ∈ s.everQueued

/-- Domain-confinement invariant with respect to the seed netloc `n`:
everything queued or held parses with netloc `n`, every Valid record
parses with netloc `n`, and every `ExternalDomain` record parses with a
netloc different from `n`. -/
structure NetInv (n : String) (s : CrawlState) : Prop where
  queue_ok : ∀ p ∈ s.queue, ∃ t, pyUrlparseE p.1 = .ok t ∧ t.netloc = n
  workers_ok : ∀ i u ℓ, s.workers.get? i = some (some (u, ℓ)) →
    ∃ t, pyUrlparseE u = .ok t ∧ t.netloc = n
  valid_ok : ∀ p ∈ s.validRecs, ∃ t, pyUrlparseE p.1 = .ok t ∧ t.netloc = n
  ext_bad : ∀ p ∈ s.invalidRecs, p.2.1 = URLError.EXTERNAL_DOMAIN →
    ∃ t, pyUrlparseE p.1 = .ok t ∧ t.netloc ≠ n

/-- Sequential-run invariant (single worker): each URL has at most one
Valid and at most one `DownloadError` record; a recorded URL is either
already in the visited list or currently being processed; the URL being
processed has no records yet and is not yet visited. -/
structure SeqInv (s : CrawlState) : Prop where
  wone : s.workers.length = 1
  vcount : ∀ u, countValid u s.validRecs ≤ 1
  dcount : ∀ u, countDL u s.invalidRecs ≤ 1
  vmark : ∀ u, 1 ≤ countValid u s.validRecs →
    u ∈ s.visited ∨ ∃ ℓ, s.workers.get? 0 = some (some (u, ℓ))
  dmark : ∀ u, 1 ≤ countDL u s.invalidRecs →
    u ∈ s.visited ∨ ∃ ℓ, s.workers.get? 0 = some (some (u, ℓ))
  hold_fresh : ∀ i u ℓ, s.workers.get? i = some (some (u, ℓ)) →
    countValid u s.validRecs = 0 ∧ countDL u s.invalidRecs = 0 ∧
    u ∉ s.visited

/-! ## Theorems -/

/-- A successful scheduling decision is a step of the crawl semantics. -/
theorem applyAct_cstep {fetch : String → FetchResult} {d : Nat}
    {s s' : CrawlState} {a : WAct}
    (h : applyAct fetch d s a = some s') : CStep fetch d s s' := by
  cases a with
  | skipDeep i =>
    simp only [applyAct] at h
    split at h
    next u ℓ rest hw hq =>
      split at h
      · exact Option.some.inj h ▸ CStep.skipDeep s i u ℓ rest hw hq (by assumption)
      · exact absurd h (by simp)
    next => exact absurd h (by simp)
  | skipVisited i =>
    simp only [applyAct] at h
    split at h
    next u ℓ rest hw hq =>
      split at h
      next hc =>
        exact Option.some.inj h ▸
          CStep.skipVisited s i u ℓ rest hw hq hc.1 hc.2
      next => exact absurd h (by simp)
    next => exact absurd h (by simp)
  | take i =>
    simp only [applyAct] at h
    split at h
    next u ℓ rest hw hq =>
      split at h
      next hc =>
        exact Option.some.inj h ▸ CStep.take s i u ℓ rest hw hq hc.1 hc.2
      next => exact absurd h (by simp)
    next => exact absurd h (by simp)
  | run i =>
    simp only [applyAct] at h
    split at h
    next u ℓ hw => exact Option.some.inj h ▸ CStep.run s i u ℓ hw
    next => exact absurd h (by simp)

/-- Executing a schedule only visits reachable states. -/
theorem runActs_reflTrans {fetch : String → FetchResult} {d : Nat}
    (acts : List WAct) : ∀ {s s' : CrawlState},
      runActs fetch d s acts = some s' →
      Relation.ReflTransGen (CStep fetch d) s s' := by
  induction acts with
  | nil =>
    intro s s' h
    cases h
    exact .refl
  | cons a rest ih =>
    intro s s' h
    simp only [runActs] at h
    split at h
    next heq => exact Relation.ReflTransGen.head (applyAct_cstep heq) (ih h)
    next => exact absurd h (by simp)

/-- C1: the code does not resolve `..` links by standard URL-resolution
semantics.  On parent page `http://x.test/a/b.html` the raw link
`x/../c` resolves, under RFC 3986 (the "standard URL-resolution
semantics" the spec requires), against the parent's directory to path
`/a/c` — but `crawl.py` line 110 joins the parent's *entire* path
(filename included) with the link's path through
`Path("/{parent}/{link}").resolve()` and produces `/a/b.html/c`; the
crawler therefore emits `http://x.test/a/b.html/c`.  (On top of the
textual divergence shown here, `Path.resolve()` consults the filesystem:
a symlink matching a prefix of `//a/b.html/x/../c` would change the
result, so the outcome is not independent of filesystem entries either.) -/
theorem C1_code_divergence :
    pyUrlparseE "http://x.test/a/b.html" =
      .ok ⟨"http", "x.test", "/a/b.html", "", "", ""⟩ ∧
    classifyLink ⟨"http", "x.test", "/a/b.html", "", "", ""⟩ "x/../c" =
      .valid "http://x.test/a/b.html/c" ∧
    rfcResolvePath "/a/b.html" "x/../c" = "/a/c" ∧
    pyPathResolve ("/" ++ "/a/b.html" ++ "/" ++ "x/../c") ≠
      rfcResolvePath "/a/b.html" "x/../c" := by
  decide

/-- C2 counterexample: in a run seeded at `http://x.test/` whose seed page
contains the raw link `"::not a url::"`, the crawler reaches a state in
which the item `("http://x.test/::not a url::", 1)` sits on the frontier
and the invalid-URL sink is empty — the malformed link produced no
`ParseError` record and *was* pushed, refuting the claim. -/
theorem C2_counterexample :
    CReachable fetchC2 2 1 seedX c2final ∧
    ("http://x.test/::not a url::", 1) ∈ c2final.queue ∧
    c2final.invalidRecs = [] :=
  ⟨runActs_reflTrans seqActs2 (by decide), by decide, by decide⟩

/-- C2 amended: `urlparse` accepts `"::not a url::"` (the leading colon is
at index 0, so no scheme is split off and the whole string becomes a
relative path), `validate_url` only catches `KeyboardInterrupt` and so
never reports a parse failure for it, and the Normalizer inherits the
parent's scheme and host and classifies the result
`http://x.test/::not a url::` as a same-domain valid link. -/
theorem C2_amended :
    pyUrlparseE "::not a url::" =
      .ok ⟨"", "", "::not a url::", "", "", ""⟩ ∧
    pyUrlparseE "http://x.test/" = .ok ⟨"http", "x.test", "/", "", "", ""⟩ ∧
    classifyLink ⟨"http", "x.test", "/", "", "", ""⟩ "::not a url::" =
      .valid "http://x.test/::not a url::" := by
  decide

/-- C3 counterexample: with the configured max depth 2, a run over a
three-deep chain of pages reaches a state whose queue history contains
the item `("http://x.test/c", 3)` — a FrontierItem *was* enqueued with
depth 3 > 2 (children of a depth-2 page are pushed at depth 3 and only
discarded at pop time). -/
theorem C3_counterexample :
    CReachable fetchC3 2 1 seedX c3final ∧
    ("http://x.test/c", 3) ∈ c3final.everQueued :=
  ⟨runActs_reflTrans seqActs6 (by decide), by decide⟩

/-- C6 counterexample: with two workers and max depth 2, pages `/p` and
`/q` both link `/dup`, which is queued twice; both workers pass the
visited-set guard for `/dup` before either appends it to `visited_urls`
(the check-then-act race of spec §9), and the run reaches a state with
two Valid records for the same canonical URL. -/
theorem C6_counterexample :
    CReachable fetchC6 2 2 seedX c6final ∧
    countValid "http://x.test/dup" c6final.validRecs = 2 :=
  ⟨runActs_reflTrans raceActs (by decide), by decide⟩

/-- C8 counterexample: on the record collection `[(h,u), (h,u)]` — the
same URL recorded twice for the same hash, as two racing workers
fetching the same image produce — `output_dupimgs` emits data rows for
hash `h` although only one distinct URL maps to it (`len(urls) > 1`
counts entries, not distinct URLs). -/
theorem C8_counterexample :
    output_dupimgs [("h", "u"), ("h", "u")] =
      [["URL", "md5"], ["u", "h"], ["u", "h"]] ∧
    dedupFirst (hashGroup [("h", "u"), ("h", "u")] "h") = ["u"] := by
  decide

/-- C9 counterexample: the Normalizer is not idempotent.  On parent page
`http://x.test/d`, the raw link `a..b/c` (no parent-directory segment —
but `".." in path` is a substring test and matches inside `a..b`) is
resolved to `http://x.test/d/a..b/c`; feeding that output back with the
same parent triggers the substring test again and re-joins it against
the parent path, yielding the different URL `http://x.test/d/d/a..b/c`. -/
theorem C9_counterexample :
    pyUrlparseE "http://x.test/d" = .ok ⟨"http", "x.test", "/d", "", "", ""⟩ ∧
    classifyLink ⟨"http", "x.test", "/d", "", "", ""⟩ "a..b/c" =
      .valid "http://x.test/d/a..b/c" ∧
    classifyLink ⟨"http", "x.test", "/d", "", "", ""⟩ "http://x.test/d/a..b/c" =
      .valid "http://x.test/d/d/a..b/c" ∧
    ("http://x.test/d/a..b/c" : String) ≠ "http://x.test/d/d/a..b/c" := by
  decide

/-- C10 counterexample: the same two-worker race as for C6, with `/dup`
failing to download: both workers pass the visited guard for `/dup`
before either marks it visited, both fetches fail, and the run reaches a
state with two `DownloadError` records for the same processed URL. -/
theorem C10_counterexample :
    CReachable fetchC10 2 2 seedX c10final ∧
    countDL "http://x.test/dup" c10final.invalidRecs = 2 :=
  ⟨runActs_reflTrans raceActs (by decide), by decide⟩

/-- A link whose parse raises aborts the loop with `classifyLink = .err`. -/
theorem classifyLink_err_of_parse {par : UrlParts} {l : String}
    (h : pyUrlparseE l = .error ()) : classifyLink par l = .err := by
  unfold classifyLink
  rw [h]

/-- A link classified `external` re-parses with a netloc different from
the parent's (crawl.py line 118). -/
theorem classifyLink_external_spec {par : UrlParts} {l x : String}
    (h : classifyLink par l = .external x) :
    ∃ t, pyUrlparseE x = .ok t ∧ t.netloc ≠ par.netloc := by
  unfold classifyLink at h
  cases hp : pyUrlparseE l with
  | error e => rw [hp] at h; cases h
  | ok p =>
    rw [hp] at h
    dsimp only at h
    cases hq : pyUrlparseE (pyUrlunparse
        ⟨if p.scheme = "" then par.scheme else p.scheme,
         if p.netloc = "" then par.netloc else p.netloc,
         if hasDotDot p.path.toList then
           pyPathResolve ("/" ++ par.path ++ "/" ++ p.path)
         else p.path, p.params, p.query, ""⟩) with
    | error e => rw [hq] at h; cases h
    | ok p2 =>
      rw [hq] at h
      dsimp only at h
      by_cases hn : p2.netloc ≠ par.netloc
      · rw [if_pos hn] at h
        cases h
        exact ⟨p2, hq, hn⟩
      · rw [if_neg hn] at h
        cases h

/-- A link classified `valid` re-parses with the parent's netloc
(crawl.py lines 118–121). -/
theorem classifyLink_valid_spec {par : UrlParts} {l v : String}
    (h : classifyLink par l = .valid v) :
    ∃ t, pyUrlparseE v = .ok t ∧ t.netloc = par.netloc := by
  unfold classifyLink at h
  cases hp : pyUrlparseE l with
  | error e => rw [hp] at h; cases h
  | ok p =>
    rw [hp] at h
    dsimp only at h
    cases hq : pyUrlparseE (pyUrlunparse
        ⟨if p.scheme = "" then par.scheme else p.scheme,
         if p.netloc = "" then par.netloc else p.netloc,
         if hasDotDot p.path.toList then
           pyPathResolve ("/" ++ par.path ++ "/" ++ p.path)
         else p.path, p.params, p.query, ""⟩) with
    | error e => rw [hq] at h; cases h
    | ok p2 =>
      rw [hq] at h
      dsimp only at h
      by_cases hn : p2.netloc ≠ par.netloc
      · rw [if_pos hn] at h
        cases h
      · rw [if_neg hn] at h
        cases h
        exact ⟨p2, hq, not_not.mp hn⟩

/-- Every invalid record the link loop collects is an `ExternalDomain`
record for a link classified external. -/
theorem processLinks_external {par : UrlParts} {links : List String}
    {x : String} {e : URLError}
    (h : (x, e) ∈ (processLinks par links).1) :
    e = URLError.EXTERNAL_DOMAIN ∧ ∃ l ∈ links, classifyLink par l = .external x := by
  induction links with
  | nil => simp [processLinks] at h
  | cons a rest ih =>
    rw [processLinks] at h
    cases hca : classifyLink par a with
    | err => rw [hca] at h; simp at h
    | external u =>
      rw [hca] at h
      rcases List.mem_cons.mp h with h1 | h2
      · cases h1
        exact ⟨rfl, a, List.mem_cons_self a rest, hca⟩
      · obtain ⟨he, l, hl, hc⟩ := ih h2
        exact ⟨he, l, List.mem_cons_of_mem a hl, hc⟩
    | valid u =>
      rw [hca] at h
      obtain ⟨he, l, hl, hc⟩ := ih h
      exact ⟨he, l, List.mem_cons_of_mem a hl, hc⟩

/-- Every valid link the link loop collects was classified valid. -/
theorem processLinks_valid {par : UrlParts} {links : List String} {v : String}
    (h : v ∈ (processLinks par links).2.1) :
    ∃ l ∈ links, classifyLink par l = .valid v := by
  induction links with
  | nil => simp [processLinks] at h
  | cons a rest ih =>
    rw [processLinks] at h
    cases hca : classifyLink par a with
    | err => rw [hca] at h; simp at h
    | external u =>
      rw [hca] at h
      obtain ⟨l, hl, hc⟩ := ih h
      exact ⟨l, List.mem_cons_of_mem a hl, hc⟩
    | valid u =>
      rw [hca] at h
      rcases List.mem_cons.mp h with h1 | h2
      · cases h1
        exact ⟨a, List.mem_cons_self a rest, hca⟩
      · obtain ⟨l, hl, hc⟩ := ih h2
        exact ⟨l, List.mem_cons_of_mem a hl, hc⟩

/-- A parse error among the links aborts the loop. -/
theorem processLinks_abort {par : UrlParts} {links : List String}
    (h : ∃ l ∈ links, pyUrlparseE l = .error ()) :
    (processLinks par links).2.2 = true := by
  induction links with
  | nil => simp at h
  | cons a rest ih =>
    obtain ⟨l, hl, he⟩ := h
    rcases List.mem_cons.mp hl with rfl | hl'
    · rw [processLinks, classifyLink_err_of_parse he]
    · rw [processLinks]
      cases hca : classifyLink par a with
      | err => rfl
      | external u => simpa using ih ⟨l, hl', he⟩
      | valid u => simpa using ih ⟨l, hl', he⟩

/-- Membership in `dedupFirstAux` implies membership in the input. -/
theorem mem_of_mem_dedupFirstAux {x : String} :
    ∀ {l seen : List String}, x ∈ dedupFirstAux l seen → x ∈ l := by
  intro l
  induction l with
  | nil => intro seen h; simp [dedupFirstAux] at h
  | cons a t ih =>
    intro seen h
    rw [dedupFirstAux] at h
    split at h
    · exact List.mem_cons_of_mem a (ih h)
    · rcases List.mem_cons.mp h with h1 | h2
      · exact List.mem_cons.mpr (Or.inl h1)
      · exact List.mem_cons_of_mem a (ih h2)

/-- The worker body writes Valid records only for its own item. -/
theorem processItem_valids_cases {fetch : String → FetchResult}
    {vis : List String} {u : String} {ℓ : Nat} :
    (processItem fetch vis u ℓ).valids = [] ∨
    (processItem fetch vis u ℓ).valids = [(u, ℓ)] := by
  unfold processItem
  split
  · left; rfl
  · split
    · left; rfl
    · left; rfl
    · right; rfl
    · right; rfl
    · right; rfl
    · right; rfl

/-- The worker body fetches only its own item. -/
theorem processItem_fetched_cases {fetch : String → FetchResult}
    {vis : List String} {u : String} {ℓ : Nat} :
    (processItem fetch vis u ℓ).fetched = [] ∨
    (processItem fetch vis u ℓ).fetched = [(u, ℓ)] := by
  unfold processItem
  split
  · left; rfl
  · split
    · right; rfl
    · right; rfl
    · right; rfl
    · right; rfl
    · right; rfl
    · right; rfl

/-- Every link the worker body pushes is tagged depth `ℓ + 1`. -/
theorem processItem_pushes_depth {fetch : String → FetchResult}
    {vis : List String} {u : String} {ℓ : Nat} {v : String} {k : Nat}
    (h : (v, k) ∈ (processItem fetch vis u ℓ).pushes) : k = ℓ + 1 := by
  unfold processItem at h
  split at h
  · simp [emptyOut] at h
  · split at h
    · simp [emptyOut] at h
    · simp [emptyOut] at h
    · simp [emptyOut] at h
    · simp [emptyOut] at h
    · simp [emptyOut] at h
    · dsimp only at h
      split at h
      · simp at h
      · obtain ⟨v', _, heq⟩ := List.mem_map.mp h
        simp only [Prod.mk.injEq] at heq
        exact heq.2.symm

/-- Every link the worker body pushes was classified valid against the
parsed item URL, hence re-parses with that URL's netloc. -/
theorem processItem_pushes_netloc {fetch : String → FetchResult}
    {vis : List String} {u : String} {ℓ : Nat} {tu : UrlParts}
    (hu : pyUrlparseE u = .ok tu) {v : String} {k : Nat}
    (h : (v, k) ∈ (processItem fetch vis u ℓ).pushes) :
    ∃ t, pyUrlparseE v = .ok t ∧ t.netloc = tu.netloc := by
  unfold processItem at h
  rw [hu] at h
  dsimp only at h
  split at h
  · simp [emptyOut] at h
  · simp [emptyOut] at h
  · simp [emptyOut] at h
  · simp [emptyOut] at h
  · simp [emptyOut] at h
  · next links =>
    dsimp only at h
    split at h
    · simp at h
    · obtain ⟨v', hv', heq⟩ := List.mem_map.mp h
      simp only [Prod.mk.injEq] at heq
      obtain ⟨l, _, hc⟩ :=
        processLinks_valid
          (mem_of_mem_dedupFirstAux (List.mem_filter.mp hv').1)
      exact heq.1 ▸ classifyLink_valid_spec hc

/-- Every invalid record the worker body writes carries the depth of the
item it was processing; a `DownloadError` record is for the item's own
URL; an `ExternalDomain` record is for a link that re-parses with a
netloc different from the parsed item URL's. -/
theorem processItem_invalids_spec {fetch : String → FetchResult}
    {vis : List String} {u : String} {ℓ : Nat} {x : String} {e : URLError}
    {k : Nat} (h : (x, e, k) ∈ (processItem fetch vis u ℓ).invalids) :
    k = ℓ ∧ (e = URLError.DOWNLOAD_ERROR → x = u) ∧
    (e = URLError.EXTERNAL_DOMAIN → ∀ tu, pyUrlparseE u = .ok tu →
      ∃ t, pyUrlparseE x = .ok t ∧ t.netloc ≠ tu.netloc) := by
  unfold processItem at h
  split at h
  · simp [emptyOut] at h
  · next up hu =>
    split at h
    · simp only [emptyOut, List.mem_singleton, Prod.mk.injEq] at h
      obtain ⟨rfl, rfl, rfl⟩ := h
      exact ⟨rfl, fun _ => rfl, fun he => absurd he (by simp)⟩
    · simp [emptyOut] at h
    · simp [emptyOut] at h
    · simp [emptyOut] at h
    · simp [emptyOut] at h
    · dsimp only at h
      obtain ⟨⟨x', e'⟩, hx', heq⟩ := List.mem_map.mp h
      simp only [Prod.mk.injEq] at heq
      obtain ⟨rfl, rfl, rfl⟩ := heq
      obtain ⟨he, l, _, hc⟩ := processLinks_external hx'
      refine ⟨rfl, fun hdl => absurd (he ▸ hdl) (by simp), fun _ tu htu => ?_⟩
      rw [hu] at htu
      cases htu
      exact classifyLink_external_spec hc

/-- Reading an updated list either sees the written value or the old
content. -/
theorem get?_set_elim {α : Type} {l : List α} :
    ∀ {i j : Nat} {a b : α}, (l.set i a).get? j = some b →
      b = a ∨ l.get? j = some b := by
  induction l with
  | nil => intro i j a b h; simp [List.set] at h
  | cons x t ih =>
    intro i j a b h
    cases i with
    | zero =>
      cases j with
      | zero => simp only [List.set, List.get?] at h; exact Or.inl (Option.some.inj h).symm
      | succ j' => simp only [List.set, List.get?] at h ⊢; exact Or.inr h
    | succ i' =>
      cases j with
      | zero => simp only [List.set, List.get?] at h ⊢; exact Or.inr h
      | succ j' => simp only [List.set, List.get?] at h ⊢; exact ih h

/-- Every slot of `replicate` holds the replicated value. -/
theorem get?_replicate_elim {α : Type} {a x : α} :
    ∀ {W i : Nat}, (List.replicate W a).get? i = some x → x = a := by
  intro W
  induction W with
  | zero => intro i h; simp [List.replicate] at h
  | succ n ih =>
    intro i h
    cases i with
    | zero => simp only [List.replicate, List.get?] at h; exact (Option.some.inj h).symm
    | succ i' => simp only [List.replicate, List.get?] at h; exact ih h


/-- The initial state satisfies the depth invariant. -/
theorem depthInv_init {d : Nat} {seed : String} {W : Nat} :
    DepthInv d (initState seed W) := by
  constructor
  · intro p hp
    simp only [initState, List.mem_singleton] at hp
    subst hp
    exact Nat.zero_le _
  · intro i u ℓ h
    simpa using get?_replicate_elim h
  · intro p hp
    simp only [initState, List.mem_singleton] at hp
    subst hp
    exact Nat.zero_le _
  · intro p hp
    simp [initState] at hp
  · intro p hp
    simp [initState] at hp
  · intro p hp
    simp [initState] at hp
  · intro p hp
    simpa [initState] using hp
  · intro i u ℓ h
    simpa using get?_replicate_elim h
  · intro p hp
    simp [initState] at hp

/-- The depth invariant is preserved by every step. -/
theorem depthInv_step {fetch : String → FetchResult} {d : Nat}
    {s s' : CrawlState} (inv : DepthInv d s) (hs : CStep fetch d s s') :
    DepthInv d s' := by
  cases hs with
  | skipDeep i u ℓ rest hw hq hd =>
    exact ⟨fun p hp => inv.queue_le p (by rw [hq]; exact List.mem_cons_of_mem _ hp),
      inv.workers_le, inv.ever_le, inv.fetched_le, inv.valid_le, inv.invalid_le,
      fun p hp => inv.queue_sub p (by rw [hq]; exact List.mem_cons_of_mem _ hp),
      inv.workers_sub, inv.fetched_sub⟩
  | skipVisited i u ℓ rest hw hq hl hv =>
    exact ⟨fun p hp => inv.queue_le p (by rw [hq]; exact List.mem_cons_of_mem _ hp),
      inv.workers_le, inv.ever_le, inv.fetched_le, inv.valid_le, inv.invalid_le,
      fun p hp => inv.queue_sub p (by rw [hq]; exact List.mem_cons_of_mem _ hp),
      inv.workers_sub, inv.fetched_sub⟩
  | take i u ℓ rest hw hq hl hv =>
    refine ⟨fun p hp => inv.queue_le p (by rw [hq]; exact List.mem_cons_of_mem _ hp),
      ?_, inv.ever_le, inv.fetched_le, inv.valid_le, inv.invalid_le,
      fun p hp => inv.queue_sub p (by rw [hq]; exact List.mem_cons_of_mem _ hp),
      ?_, inv.fetched_sub⟩
    · intro j v k h
      rcases get?_set_elim h with h1 | h2
      · have h3 : (v, k) = (u, ℓ) := Option.some.inj h1
        injection h3 with h4 h5
        subst h4
        subst h5
        exact hl
      · exact inv.workers_le j v k h2
    · intro j v k h
      rcases get?_set_elim h with h1 | h2
      · have h3 : (v, k) = (u, ℓ) := Option.some.inj h1
        injection h3 with h4 h5
        subst h4
        subst h5
        exact inv.queue_sub (v, k) (by rw [hq]; exact List.mem_cons_self _ _)
      · exact inv.workers_sub j v k h2
  | run i u ℓ hw =>
    have hle : ℓ ≤ d := inv.workers_le i u ℓ hw
    have hever : (u, ℓ) ∈ s.everQueued := inv.workers_sub i u ℓ hw
    constructor
    · intro p hp
      rcases List.mem_append.mp hp with h | h
      · exact inv.queue_le p h
      · obtain ⟨v, k⟩ := p
        rw [processItem_pushes_depth h]
        exact Nat.succ_le_succ hle
    · intro j v k h
      rcases get?_set_elim h with h1 | h2
      · cases h1
      · exact inv.workers_le j v k h2
    · intro p hp
      rcases List.mem_append.mp hp with h | h
      · exact inv.ever_le p h
      · obtain ⟨v, k⟩ := p
        rw [processItem_pushes_depth h]
        exact Nat.succ_le_succ hle
    · intro p hp
      rcases List.mem_append.mp hp with h | h
      · exact inv.fetched_le p h
      · rcases @processItem_fetched_cases fetch s.visited u ℓ with hc | hc
        · rw [hc] at h; simp at h
        · rw [hc] at h
          obtain rfl := List.mem_singleton.mp h
          exact hle
    · intro p hp
      rcases List.mem_append.mp hp with h | h
      · exact inv.valid_le p h
      · rcases @processItem_valids_cases fetch s.visited u ℓ with hc | hc
        · rw [hc] at h; simp at h
        · rw [hc] at h
          obtain rfl := List.mem_singleton.mp h
          exact hle
    · intro p hp
      rcases List.mem_append.mp hp with h | h
      · exact inv.invalid_le p h
      · obtain ⟨x, e, k⟩ := p
        exact (processItem_invalids_spec h).1 ▸ hle
    · intro p hp
      rcases List.mem_append.mp hp with h | h
      · exact List.mem_append_left _ (inv.queue_sub p h)
      · exact List.mem_append_right _ h
    · intro j v k h
      rcases get?_set_elim h with h1 | h2
      · cases h1
      · exact List.mem_append_left _ (inv.workers_sub j v k h2)
    · intro p hp
      rcases List.mem_append.mp hp with h | h
      · exact List.mem_append_left _ (inv.fetched_sub p h)
      · rcases @processItem_fetched_cases fetch s.visited u ℓ with hc | hc
        · rw [hc] at h; simp at h
        · rw [hc] at h
          obtain rfl := List.mem_singleton.mp h
          exact List.mem_append_left _ hever

/-- Every reachable state satisfies the depth invariant. -/
theorem depthInv_reachable {fetch : String → FetchResult} {d W : Nat}
    {seed : String} {s : CrawlState} (h : CReachable fetch d W seed s) :
    DepthInv d s := by
  induction h with
  | refl => exact depthInv_init
  | tail _ hstep ih => exact depthInv_step ih hstep

/-- C3 amended: the queue history of every reachable state contains no
item deeper than `d + 1` — children of a depth-`d` page are enqueued at
`d + 1`, and nothing deeper is ever enqueued — and no item deeper than
`d` is ever fetched (those at `d + 1` are discarded by the pop-time
guard). -/
theorem C3_amended (fetch : String → FetchResult) (d W : Nat)
    (seed : String) (s : CrawlState) (h : CReachable fetch d W seed s) :
    (∀ p ∈ s.everQueued, p.2 ≤ d + 1) ∧ (∀ p ∈ s.fetchedLog, p.2 ≤ d) :=
  ⟨(depthInv_reachable h).ever_le, (depthInv_reachable h).fetched_le⟩

/-- C3 witness: the amended bound instantiated on the concrete
`fetchC3` run (which does enqueue an item at depth 3 = d + 1). -/
theorem C3_witness :
    CReachable fetchC3 2 1 seedX c3final ∧
    (∀ p ∈ c3final.everQueued, p.2 ≤ 2 + 1) ∧
    (∀ p ∈ c3final.fetchedLog, p.2 ≤ 2) :=
  ⟨runActs_reflTrans seqActs6 (by decide),
   (C3_amended fetchC3 2 1 seedX c3final
      (runActs_reflTrans seqActs6 (by decide))).1,
   (C3_amended fetchC3 2 1 seedX c3final
      (runActs_reflTrans seqActs6 (by decide))).2⟩

/-- C4: in every reachable state, every Valid record carries depth ≤ d;
every Invalid record was written while processing a frontier item of
depth ≤ d (the CSV row itself carries no depth — the ghost component
records the depth of the item being processed); and a URL whose every
queue-history entry is deeper than d is never fetched, so a page
discovered only via links on a depth-d page (enqueued only at depth
d + 1) is never fetched. -/
theorem C4_depth_bound (fetch : String → FetchResult) (d W : Nat)
    (seed : String) (s : CrawlState) (h : CReachable fetch d W seed s) :
    (∀ p ∈ s.validRecs, p.2 ≤ d) ∧
    (∀ p ∈ s.invalidRecs, p.2.2 ≤ d) ∧
    (∀ u : String, (∀ ℓ : Nat, (u, ℓ) ∈ s.everQueued → d < ℓ) →
      ∀ ℓ : Nat, (u, ℓ) ∉ s.fetchedLog) := by
  have inv := depthInv_reachable h
  refine ⟨inv.valid_le, inv.invalid_le, ?_⟩
  intro u hdeep ℓ hf
  exact absurd (inv.fetched_le (u, ℓ) hf)
    (Nat.not_le.mpr (hdeep ℓ (inv.fetched_sub (u, ℓ) hf)))

/-- C4 witness: the depth bounds instantiated on the concrete `fetchC3`
run, whose page `/c` is discovered only via the depth-2 page `/b` and is
never fetched. -/
theorem C4_witness :
    CReachable fetchC3 2 1 seedX c3final ∧
    (∀ p ∈ c3final.validRecs, p.2 ≤ 2) ∧
    (∀ ℓ : Nat, ("http://x.test/c", ℓ) ∉ c3final.fetchedLog) :=
  ⟨runActs_reflTrans seqActs6 (by decide),
   (C4_depth_bound fetchC3 2 1 seedX c3final
      (runActs_reflTrans seqActs6 (by decide))).1,
   (C4_depth_bound fetchC3 2 1 seedX c3final
      (runActs_reflTrans seqActs6 (by decide))).2.2 "http://x.test/c"
      (by
        intro ℓ hm
        have he : c3final.everQueued =
            [("http://x.test/", 0), ("http://x.test/a", 1),
             ("http://x.test/b", 2), ("http://x.test/c", 3)] := by decide
        rw [he] at hm
        simp only [List.mem_cons, List.not_mem_nil, or_false,
          Prod.mk.injEq] at hm
        rcases hm with ⟨h1, h2⟩ | ⟨h1, h2⟩ | ⟨h1, h2⟩ | ⟨h1, h2⟩
        · exact absurd h1 (by decide)
        · exact absurd h1 (by decide)
        · exact absurd h1 (by decide)
        · exact h2 ▸ (by decide : (2 : Nat) < 3))⟩


/-- The initial state satisfies domain confinement for the seed's own
netloc. -/
theorem netInv_init {seed : String} {st : UrlParts} {W : Nat}
    (hseed : pyUrlparseE seed = .ok st) :
    NetInv st.netloc (initState seed W) := by
  constructor
  · intro p hp
    simp only [initState, List.mem_singleton] at hp
    subst hp
    exact ⟨st, hseed, rfl⟩
  · intro i u ℓ h
    simpa using get?_replicate_elim h
  · intro p hp
    simp [initState] at hp
  · intro p hp
    simp [initState] at hp

/-- Domain confinement is preserved by every step. -/
theorem netInv_step {fetch : String → FetchResult} {d : Nat} {n : String}
    {s s' : CrawlState} (inv : NetInv n s) (hs : CStep fetch d s s') :
    NetInv n s' := by
  cases hs with
  | skipDeep i u ℓ rest hw hq hd =>
    exact ⟨fun p hp => inv.queue_ok p (by rw [hq]; exact List.mem_cons_of_mem _ hp),
      inv.workers_ok, inv.valid_ok, inv.ext_bad⟩
  | skipVisited i u ℓ rest hw hq hl hv =>
    exact ⟨fun p hp => inv.queue_ok p (by rw [hq]; exact List.mem_cons_of_mem _ hp),
      inv.workers_ok, inv.valid_ok, inv.ext_bad⟩
  | take i u ℓ rest hw hq hl hv =>
    refine ⟨fun p hp => inv.queue_ok p (by rw [hq]; exact List.mem_cons_of_mem _ hp),
      ?_, inv.valid_ok, inv.ext_bad⟩
    intro j v k h
    rcases get?_set_elim h with h1 | h2
    · have h3 : (v, k) = (u, ℓ) := Option.some.inj h1
      injection h3 with h4 h5
      subst h4
      exact inv.queue_ok (v, ℓ) (by rw [hq]; exact List.mem_cons_self _ _)
    · exact inv.workers_ok j v k h2
  | run i u ℓ hw =>
    obtain ⟨tu, htu, hn⟩ := inv.workers_ok i u ℓ hw
    constructor
    · intro p hp
      rcases List.mem_append.mp hp with h | h
      · exact inv.queue_ok p h
      · obtain ⟨v, k⟩ := p
        obtain ⟨t, ht, he⟩ := processItem_pushes_netloc htu h
        exact ⟨t, ht, hn ▸ he⟩
    · intro j v k h
      rcases get?_set_elim h with h1 | h2
      · cases h1
      · exact inv.workers_ok j v k h2
    · intro p hp
      rcases List.mem_append.mp hp with h | h
      · exact inv.valid_ok p h
      · rcases @processItem_valids_cases fetch s.visited u ℓ with hc | hc
        · rw [hc] at h; simp at h
        · rw [hc] at h
          obtain rfl := List.mem_singleton.mp h
          exact ⟨tu, htu, hn⟩
    · intro p hp he
      rcases List.mem_append.mp hp with h | h
      · exact inv.ext_bad p h he
      · obtain ⟨x, e, k⟩ := p
        obtain ⟨t, ht, hne⟩ :=
          (processItem_invalids_spec h).2.2 he tu htu
        exact ⟨t, ht, hn ▸ hne⟩

/-- Every reachable state satisfies domain confinement. -/
theorem netInv_reachable {fetch : String → FetchResult} {d W : Nat}
    {seed : String} {st : UrlParts} {s : CrawlState}
    (hseed : pyUrlparseE seed = .ok st)
    (h : CReachable fetch d W seed s) : NetInv st.netloc s := by
  induction h with
  | refl => exact netInv_init hseed
  | tail _ hstep ih => exact netInv_step ih hstep

/-- C5: in every reachable state of a run whose seed parses with netloc
`st.netloc` (the spec compares hosts by the netloc component,
case-sensitively): every `ExternalDomain` record names a URL that
re-parses with a netloc different from the seed's; every Valid record
names a URL that parses with the seed's netloc; and — the inductive
invariant — every frontier item parses with the seed's netloc. -/
theorem C5_domain_confinement (fetch : String → FetchResult) (d W : Nat)
    (seed : String) (st : UrlParts) (s : CrawlState)
    (hseed : pyUrlparseE seed = .ok st)
    (h : CReachable fetch d W seed s) :
    (∀ p ∈ s.invalidRecs, p.2.1 = URLError.EXTERNAL_DOMAIN →
      ∃ t, pyUrlparseE p.1 = .ok t ∧ t.netloc ≠ st.netloc) ∧
    (∀ p ∈ s.validRecs, ∃ t, pyUrlparseE p.1 = .ok t ∧ t.netloc = st.netloc) ∧
    (∀ p ∈ s.queue, ∃ t, pyUrlparseE p.1 = .ok t ∧ t.netloc = st.netloc) := by
  have inv := netInv_reachable hseed h
  exact ⟨inv.ext_bad, inv.valid_ok, inv.queue_ok⟩

/-- C5 witness: domain confinement instantiated on the concrete `fetchC5`
run, which records `http://other.test/b` as `ExternalDomain`. -/
theorem C5_witness :
    pyUrlparseE seedX = .ok ⟨"http", "x.test", "/", "", "", ""⟩ ∧
    CReachable fetchC5 2 1 seedX c5final ∧
    (∀ p ∈ c5final.invalidRecs, p.2.1 = URLError.EXTERNAL_DOMAIN →
      ∃ t, pyUrlparseE p.1 = .ok t ∧ t.netloc ≠ "x.test") ∧
    (∀ p ∈ c5final.validRecs, ∃ t, pyUrlparseE p.1 = .ok t ∧ t.netloc = "x.test") :=
  ⟨by decide, runActs_reflTrans seqActs2 (by decide),
   (C5_domain_confinement fetchC5 2 1 seedX ⟨"http", "x.test", "/", "", "", ""⟩
      c5final (by decide) (runActs_reflTrans seqActs2 (by decide))).1,
   (C5_domain_confinement fetchC5 2 1 seedX ⟨"http", "x.test", "/", "", "", ""⟩
      c5final (by decide) (runActs_reflTrans seqActs2 (by decide))).2.1⟩

/-- Valid-record counts add over appended sinks. -/
theorem countValid_append (v : String) (l1 l2 : List (String × Nat)) :
    countValid v (l1 ++ l2) = countValid v l1 + countValid v l2 := by
  simp [countValid, List.filter_append]

/-- DownloadError-record counts add over appended sinks. -/
theorem countDL_append (v : String) (l1 l2 : List (String × URLError × Nat)) :
    countDL v (l1 ++ l2) = countDL v l1 + countDL v l2 := by
  simp [countDL, List.filter_append]

/-- One worker-body execution writes at most one Valid record, and none
for URLs other than its item. -/
theorem processItem_countValid {fetch : String → FetchResult}
    {vis : List String} {u : String} {ℓ : Nat} (v : String) :
    countValid v (processItem fetch vis u ℓ).valids ≤ 1 ∧
    (v ≠ u → countValid v (processItem fetch vis u ℓ).valids = 0) := by
  rcases @processItem_valids_cases fetch vis u ℓ with hc | hc <;> rw [hc]
  · exact ⟨Nat.zero_le 1, fun _ => rfl⟩
  · constructor
    · by_cases h : u = v <;> simp [countValid, h]
    · intro hne
      simp [countValid, Ne.symm hne]

/-- The invalid records of one worker-body execution: either the single
`DownloadError` record for its own item, or only `ExternalDomain`
records. -/
theorem processItem_invalids_cases {fetch : String → FetchResult}
    {vis : List String} {u : String} {ℓ : Nat} :
    (processItem fetch vis u ℓ).invalids = [(u, URLError.DOWNLOAD_ERROR, ℓ)] ∨
    ∀ p ∈ (processItem fetch vis u ℓ).invalids,
      p.2.1 = URLError.EXTERNAL_DOMAIN := by
  unfold processItem
  split
  · right; intro p hp; simp [emptyOut] at hp
  · split
    · left; rfl
    · right; intro p hp; simp [emptyOut] at hp
    · right; intro p hp; simp [emptyOut] at hp
    · right; intro p hp; simp [emptyOut] at hp
    · right; intro p hp; simp [emptyOut] at hp
    · right
      intro p hp
      dsimp only at hp
      obtain ⟨⟨x', e'⟩, hx', heq⟩ := List.mem_map.mp hp
      obtain ⟨he, _⟩ := processLinks_external hx'
      subst heq
      exact he

/-- One worker-body execution writes at most one `DownloadError` record,
and none for URLs other than its item. -/
theorem processItem_countDL {fetch : String → FetchResult}
    {vis : List String} {u : String} {ℓ : Nat} (v : String) :
    countDL v (processItem fetch vis u ℓ).invalids ≤ 1 ∧
    (v ≠ u → countDL v (processItem fetch vis u ℓ).invalids = 0) := by
  rcases @processItem_invalids_cases fetch vis u ℓ with hc | hc
  · rw [hc]
    constructor
    · by_cases h : u = v <;> simp [countDL, h]
    · intro hne
      simp [countDL, Ne.symm hne]
  · have hz : countDL v (processItem fetch vis u ℓ).invalids = 0 := by
      have : List.filter
          (fun p => p.1 == v && p.2.1 == URLError.DOWNLOAD_ERROR)
          (processItem fetch vis u ℓ).invalids = [] := by
        rw [List.filter_eq_nil_iff]
        intro p hp
        rw [hc p hp]
        simp
      simp [countDL, this]
    exact ⟨hz ▸ Nat.zero_le 1, fun _ => hz⟩

/-- Reading any slot of a singleton list yields its element at index 0. -/
theorem get?_singleton_elim {α : Type} {a w : α} {i : Nat}
    (h : ([a] : List α).get? i = some w) : i = 0 ∧ a = w := by
  cases i with
  | zero => exact ⟨rfl, Option.some.inj h⟩
  | succ i' => simp [List.get?] at h

/-- A list of length one whose slot `i` reads `some w` is `[w]` at
index 0. -/
theorem workers_single {l : List (Option (String × Nat))}
    (hlen : l.length = 1) {i : Nat} {w : Option (String × Nat)}
    (h : l.get? i = some w) : i = 0 ∧ l = [w] := by
  obtain ⟨a, ha⟩ := List.length_eq_one.mp hlen
  subst ha
  obtain ⟨hi, haw⟩ := get?_singleton_elim h
  exact ⟨hi, by rw [haw]⟩


/-- The initial single-worker state satisfies the sequential invariant. -/
theorem seqInv_init {seed : String} : SeqInv (initState seed 1) := by
  constructor
  · rfl
  · intro u; exact Nat.zero_le 1
  · intro u; exact Nat.zero_le 1
  · intro u h; exact absurd h (by simp [initState, countValid])
  · intro u h; exact absurd h (by simp [initState, countDL])
  · intro i u ℓ h
    simpa using get?_replicate_elim h

/-- The sequential invariant is preserved by every step of a
single-worker run. -/
theorem seqInv_step {fetch : String → FetchResult} {d : Nat}
    {s s' : CrawlState} (inv : SeqInv s) (hs : CStep fetch d s s') :
    SeqInv s' := by
  cases hs with
  | skipDeep i u ℓ rest hw hq hd =>
    exact ⟨inv.wone, inv.vcount, inv.dcount, inv.vmark, inv.dmark,
      inv.hold_fresh⟩
  | skipVisited i u ℓ rest hw hq hl hv =>
    exact ⟨inv.wone, inv.vcount, inv.dcount, inv.vmark, inv.dmark,
      inv.hold_fresh⟩
  | take i u ℓ rest hw hq hl hv =>
    obtain ⟨rfl, hws⟩ := workers_single inv.wone hw
    constructor
    · simpa using inv.wone
    · exact inv.vcount
    · exact inv.dcount
    · intro v hc
      rcases inv.vmark v hc with h | ⟨ℓ', h⟩
      · exact Or.inl h
      · rw [hws] at h
        cases (get?_singleton_elim h).2
    · intro v hc
      rcases inv.dmark v hc with h | ⟨ℓ', h⟩
      · exact Or.inl h
      · rw [hws] at h
        cases (get?_singleton_elim h).2
    · intro j v k h
      rcases get?_set_elim h with h1 | h2
      · have h3 : (v, k) = (u, ℓ) := Option.some.inj h1
        injection h3 with h4 h5
        subst h4
        refine ⟨?_, ?_, hv⟩
        · by_contra hne
          rcases inv.vmark v (Nat.pos_of_ne_zero hne) with hin | ⟨ℓ', hh⟩
          · exact hv hin
          · rw [hws] at hh
            cases (get?_singleton_elim hh).2
        · by_contra hne
          rcases inv.dmark v (Nat.pos_of_ne_zero hne) with hin | ⟨ℓ', hh⟩
          · exact hv hin
          · rw [hws] at hh
            cases (get?_singleton_elim hh).2
      · rw [hws] at h2
        cases (get?_singleton_elim h2).2
  | run i u ℓ hw =>
    obtain ⟨rfl, hws⟩ := workers_single inv.wone hw
    obtain ⟨hv0, hd0, hnv⟩ := inv.hold_fresh 0 u ℓ hw
    have hset : s.workers.set 0 none = [none] := by rw [hws]; rfl
    constructor
    · simp only [runStep, List.length_set]
      exact inv.wone
    · intro v
      simp only [runStep]
      rw [countValid_append]
      by_cases hvu : v = u
      · subst hvu
        rw [hv0]
        simpa using (processItem_countValid v).1
      · rw [(processItem_countValid v).2 hvu]
        simpa using inv.vcount v
    · intro v
      simp only [runStep]
      rw [countDL_append]
      by_cases hvu : v = u
      · subst hvu
        rw [hd0]
        simpa using (processItem_countDL v).1
      · rw [(processItem_countDL v).2 hvu]
        simpa using inv.dcount v
    · intro v hc
      simp only [runStep] at hc ⊢
      by_cases hvu : v = u
      · subst hvu
        exact Or.inl (List.mem_append_right _ (List.mem_singleton.mpr rfl))
      · rw [countValid_append, (processItem_countValid v).2 hvu] at hc
        rcases inv.vmark v (by simpa using hc) with h | ⟨ℓ', h⟩
        · exact Or.inl (List.mem_append_left _ h)
        · rw [hws] at h
          have h3 : (some (v, ℓ') : Option (String × Nat)) = some (u, ℓ) :=
            (get?_singleton_elim h).2.symm
          have h4 : (v, ℓ') = (u, ℓ) := Option.some.inj h3
          injection h4 with h5 h6
          exact absurd h5 hvu
    · intro v hc
      simp only [runStep] at hc ⊢
      by_cases hvu : v = u
      · subst hvu
        exact Or.inl (List.mem_append_right _ (List.mem_singleton.mpr rfl))
      · rw [countDL_append, (processItem_countDL v).2 hvu] at hc
        rcases inv.dmark v (by simpa using hc) with h | ⟨ℓ', h⟩
        · exact Or.inl (List.mem_append_left _ h)
        · rw [hws] at h
          have h3 : (some (v, ℓ') : Option (String × Nat)) = some (u, ℓ) :=
            (get?_singleton_elim h).2.symm
          have h4 : (v, ℓ') = (u, ℓ) := Option.some.inj h3
          injection h4 with h5 h6
          exact absurd h5 hvu
    · intro j v k h
      simp only [runStep] at h ⊢
      rw [hset] at h
      cases (get?_singleton_elim h).2

/-- Every reachable state of a single-worker run satisfies the
sequential invariant. -/
theorem seqInv_reachable {fetch : String → FetchResult} {d : Nat}
    {seed : String} {s : CrawlState} (h : CReachable fetch d 1 seed s) :
    SeqInv s := by
  induction h with
  | refl => exact seqInv_init
  | tail _ hstep ih => exact seqInv_step ih hstep

/-- C6 amended: whenever frontier items are processed one at a time (a
single-worker run — equivalently, whenever no two workers are inside the
fetch/record window for the same URL simultaneously), each distinct
canonical URL yields at most one Valid record: the worker appends the
URL to the visited list before going idle, and the pop-time visited
guard drops every later copy silently.  With concurrent workers the
check-then-act race on the visited list (spec §9) can double-record a
URL, as `C6_counterexample` exhibits. -/
theorem C6_amended (fetch : String → FetchResult) (d : Nat) (seed : String)
    (s : CrawlState) (h : CReachable fetch d 1 seed s) :
    ∀ u, countValid u s.validRecs ≤ 1 :=
  (seqInv_reachable h).vcount

/-- C6 witness: the single-worker bound instantiated on the sequential
`fetchC6` run, where `/dup` is queued twice, recorded once, and the
second copy is dropped by the visited guard. -/
theorem C6_witness :
    CReachable fetchC6 2 1 seedX c6seqfinal ∧
    countValid "http://x.test/dup" c6seqfinal.validRecs = 1 ∧
    countValid "http://x.test/dup" c6seqfinal.validRecs ≤ 1 :=
  ⟨runActs_reflTrans seqActs9 (by decide), by decide,
   C6_amended fetchC6 2 seedX c6seqfinal
     (runActs_reflTrans seqActs9 (by decide)) "http://x.test/dup"⟩

/-- C10 amended: every frontier item a worker actually processes ends
with its URL appended to the visited list — also on `DownloadError` and
on unexpected exceptions (the append at line 146 runs after the
`except` handlers) — and in a single-worker run each processed URL
therefore yields at most one `DownloadError` record.  With concurrent
workers the visited-list race can produce a second `DownloadError`
record for the same URL, as `C10_counterexample` exhibits. -/
theorem C10_amended (fetch : String → FetchResult) (d : Nat)
    (seed : String) (s : CrawlState) (h : CReachable fetch d 1 seed s) :
    (∀ u, countDL u s.invalidRecs ≤ 1) ∧
    (∀ (s' : CrawlState) (i : Nat) (u : String) (ℓ : Nat),
      s'.workers.get? i = some (some (u, ℓ)) →
      u ∈ (runStep fetch s' i u ℓ).visited) :=
  ⟨(seqInv_reachable h).dcount,
   fun s' i u ℓ _ => by
     simp only [runStep]
     exact List.mem_append_right _ (List.mem_singleton.mpr rfl)⟩

/-- C10 witness: the single-worker bound instantiated on the sequential
`fetchC10` run, where the failing `/dup` is queued twice, yields exactly
one `DownloadError` record, and the second copy is dropped. -/
theorem C10_witness :
    CReachable fetchC10 2 1 seedX c10seqfinal ∧
    countDL "http://x.test/dup" c10seqfinal.invalidRecs = 1 ∧
    countDL "http://x.test/dup" c10seqfinal.invalidRecs ≤ 1 ∧
    "http://x.test/dup" ∈ c10seqfinal.visited :=
  ⟨runActs_reflTrans seqActs9 (by decide), by decide,
   (C10_amended fetchC10 2 seedX c10seqfinal
      (runActs_reflTrans seqActs9 (by decide))).1 "http://x.test/dup",
   by decide⟩

/-- C7: for every frontier item a worker is processing, an unexpected
error during steps 3–5 — the URL failing to parse, a non-request
exception from the fetch, an extraction failure, or a link that makes
`urlparse` raise inside the link loop — is caught by the `except
Exception` handler: the diagnostic stderr log (a stream separate from
the three result sinks) receives exactly the entry for this URL, no link
is pushed to the frontier, and the body still completes step 6, leaving
the queue untouched and the URL appended to the visited list, so the
item is marked done and termination is not prevented. -/
theorem C7_error_containment (fetch : String → FetchResult) (d : Nat)
    (s : CrawlState) (i : Nat) (u : String) (ℓ : Nat)
    (hold : s.workers.get? i = some (some (u, ℓ)))
    (herr : UnexpectedErr fetch u) :
    (processItem fetch s.visited u ℓ).pushes = [] ∧
    (processItem fetch s.visited u ℓ).errLog = [u] ∧
    (runStep fetch s i u ℓ).queue = s.queue ∧
    (runStep fetch s i u ℓ).visited = s.visited ++ [u] ∧
    CStep fetch d s (runStep fetch s i u ℓ) := by
  have key : (processItem fetch s.visited u ℓ).pushes = [] ∧
      (processItem fetch s.visited u ℓ).errLog = [u] := by
    rcases herr with hpe | hf | hf | ⟨links, hf, hbad⟩
    · unfold processItem
      rw [hpe]
      exact ⟨rfl, rfl⟩
    · cases hu : pyUrlparseE u with
      | error e => unfold processItem; rw [hu]; exact ⟨rfl, rfl⟩
      | ok up => unfold processItem; rw [hu, hf]; exact ⟨rfl, rfl⟩
    · cases hu : pyUrlparseE u with
      | error e => unfold processItem; rw [hu]; exact ⟨rfl, rfl⟩
      | ok up => unfold processItem; rw [hu, hf]; exact ⟨rfl, rfl⟩
    · cases hu : pyUrlparseE u with
      | error e => unfold processItem; rw [hu]; exact ⟨rfl, rfl⟩
      | ok up =>
        have hab : (processLinks up links).2.2 = true := processLinks_abort hbad
        unfold processItem
        rw [hu, hf]
        dsimp only
        constructor
        · simp [hab]
        · simp [hab]
  refine ⟨key.1, key.2, ?_, rfl, CStep.run s i u ℓ hold⟩
  show s.queue ++ (processItem fetch s.visited u ℓ).pushes = s.queue
  rw [key.1, List.append_nil]

/-- C7 witness: the containment facts instantiated for a worker holding
the seed item while every fetch raises an unexpected exception. -/
theorem C7_witness :
    c7state.workers.get? 0 = some (some (seedX, 0)) ∧
    fetchCrashAll seedX = .fetchCrash ∧
    ((processItem fetchCrashAll c7state.visited seedX 0).pushes = [] ∧
     (processItem fetchCrashAll c7state.visited seedX 0).errLog = [seedX] ∧
     (runStep fetchCrashAll c7state 0 seedX 0).queue = c7state.queue ∧
     (runStep fetchCrashAll c7state 0 seedX 0).visited =
       c7state.visited ++ [seedX] ∧
     CStep fetchCrashAll 2 c7state (runStep fetchCrashAll c7state 0 seedX 0)) :=
  ⟨by decide, rfl,
   C7_error_containment fetchCrashAll 2 c7state 0 seedX 0 (by decide)
     (Or.inr (Or.inl rfl))⟩

/-- C9 amended: the Normalizer is idempotent on inputs that are
canonical in the strong sense — the URL re-parses to components with a
nonempty scheme, the parent's netloc, an empty fragment and a path not
containing `".."` as a substring, and those components re-serialise to
the URL itself.  Outputs of the Normalizer need not be canonical in this
sense: an output whose path retains `".."` inside a segment is re-joined
against the parent path on the second run and changes
(`C9_counterexample`). -/
theorem C9_amended (parent : UrlParts) (c : String) (t : UrlParts)
    (hp : pyUrlparseE c = .ok t)
    (hs : t.scheme ≠ "")
    (hn : t.netloc = parent.netloc)
    (hd : hasDotDot t.path.toList = false)
    (hrt : pyUrlunparse ⟨t.scheme, t.netloc, t.path, t.params, t.query, ""⟩ = c) :
    classifyLink parent c = .valid c := by
  unfold classifyLink
  rw [hp]
  dsimp only
  rw [if_neg hs, hd]
  have h1 : (if t.netloc = "" then parent.netloc else t.netloc) = t.netloc := by
    by_cases h : t.netloc = ""
    · rw [if_pos h, ← hn]
    · rw [if_neg h]
  rw [h1]
  simp only [Bool.false_eq_true, if_false]
  rw [hrt, hp]
  dsimp only
  rw [if_neg (not_not_intro hn)]

/-- C9 witness: idempotence instantiated on the already-canonical URL
`http://x.test/a` against parent `http://x.test/d`. -/
theorem C9_witness :
    pyUrlparseE "http://x.test/a" =
      .ok ⟨"http", "x.test", "/a", "", "", ""⟩ ∧
    classifyLink ⟨"http", "x.test", "/d", "", "", ""⟩ "http://x.test/a" =
      .valid "http://x.test/a" :=
  ⟨by decide,
   C9_amended ⟨"http", "x.test", "/d", "", "", ""⟩ "http://x.test/a"
     ⟨"http", "x.test", "/a", "", "", ""⟩ (by decide) (by decide) (by decide)
     (by decide) (by decide)⟩

/-- Membership in the deduplicated list: present in the input and not in
the accumulator. -/
theorem mem_dedupFirstAux_iff {x : String} :
    ∀ {l seen : List String},
      x ∈ dedupFirstAux l seen ↔ (x ∈ l ∧ x ∉ seen) := by
  intro l
  induction l with
  | nil => intro seen; simp [dedupFirstAux]
  | cons a t ih =>
    intro seen
    rw [dedupFirstAux]
    by_cases hc : a ∈ seen
    · rw [if_pos (by simpa using hc), ih]
      constructor
      · rintro ⟨h1, h2⟩
        exact ⟨List.mem_cons_of_mem a h1, h2⟩
      · rintro ⟨h1, h2⟩
        rcases List.mem_cons.mp h1 with rfl | h3
        · exact absurd hc h2
        · exact ⟨h3, h2⟩
    · rw [if_neg (by simpa using hc)]
      constructor
      · intro hm
        rcases List.mem_cons.mp hm with rfl | h3
        · exact ⟨List.mem_cons_self _ _, hc⟩
        · obtain ⟨h4, h5⟩ := ih.mp h3
          simp only [List.mem_cons, not_or] at h5
          exact ⟨List.mem_cons_of_mem a h4, h5.2⟩
      · rintro ⟨h1, h2⟩
        rcases List.mem_cons.mp h1 with rfl | h3
        · exact List.mem_cons_self _ _
        · by_cases hxa : x = a
          · subst hxa
            exact List.mem_cons_self _ _
          · refine List.mem_cons_of_mem _ (ih.mpr ⟨h3, ?_⟩)
            simp only [List.mem_cons, not_or]
            exact ⟨hxa, h2⟩

/-- `dedupFirst` preserves membership. -/
theorem mem_dedupFirst_iff {x : String} {l : List String} :
    x ∈ dedupFirst l ↔ x ∈ l := by
  rw [dedupFirst, mem_dedupFirstAux_iff]
  simp

/-- C8 amended: the report is the header row `URL,md5` followed by the
data rows, and a data row `[u, h]` appears exactly when `(h, u)` is an
ImageRecord and at least two *records* (entries, not necessarily
distinct URLs) share hash `h` — the code tests `len(urls) > 1` on the
entry list, so a URL recorded twice for the same hash also qualifies
(`C8_counterexample`); when every record's URL is distinct (as in any
race-free run) this coincides with "2 or more distinct URLs". -/
theorem C8_amended (records : List (String × String)) (u h : String) :
    output_dupimgs records = ["URL", "md5"] :: dupRows records ∧
    ([u, h] ∈ dupRows records ↔
      ((h, u) ∈ records ∧
       2 ≤ (records.filter (fun r => r.1 == h)).length)) := by
  refine ⟨rfl, ?_⟩
  have hglen : ∀ h' : String, (hashGroup records h').length =
      (records.filter (fun r => r.1 == h')).length := by
    intro h'
    simp [hashGroup]
  unfold dupRows
  rw [List.mem_flatten]
  constructor
  · rintro ⟨rows, hrows, hmem⟩
    obtain ⟨h', hh', rfl⟩ := List.mem_map.mp hrows
    by_cases hlen : 1 < (hashGroup records h').length
    · rw [if_pos hlen] at hmem
      obtain ⟨u', hu', heq⟩ := List.mem_map.mp hmem
      injection heq with e1 e2
      injection e2 with e3 _
      subst e1
      subst e3
      refine ⟨?_, ?_⟩
      · obtain ⟨r, hr, hru⟩ := List.mem_map.mp hu'
        obtain ⟨hrm, hrh⟩ := List.mem_filter.mp hr
        obtain ⟨r1, r2⟩ := r
        simp only [beq_iff_eq] at hrh
        dsimp only at hrh hru
        subst hrh
        subst hru
        exact hrm
      · exact hglen h' ▸ hlen
    · rw [if_neg hlen] at hmem
      simp at hmem
  · rintro ⟨hmem, hlen⟩
    have hlen' : 1 < (hashGroup records h).length := by
      rw [hglen h]
      exact hlen
    refine ⟨(hashGroup records h).map (fun u' => [u', h]), ?_, ?_⟩
    · refine List.mem_map.mpr ⟨h, ?_, ?_⟩
      · exact mem_dedupFirst_iff.mpr (List.mem_map.mpr ⟨(h, u), hmem, rfl⟩)
      · dsimp only
        rw [if_pos hlen']
    · refine List.mem_map.mpr ⟨u, ?_, rfl⟩
      exact List.mem_map.mpr
        ⟨(h, u), List.mem_filter.mpr ⟨hmem, by simp⟩, rfl⟩
